import Mathlib

/-
Verification development for the VERITRACE streamlit repository, centred on
src/pages/1_pdf_multilingual_language_analyzer.py (the security-gated
ingestion/segmentation/consensus pipeline).

Modelling conventions:
* Python `str` is modelled as `List Char` with ASCII semantics
  (`\w` = alphanumeric or underscore, whitespace = the ASCII whitespace
  characters recognised by `Char.isWhitespace`).
* Machine floats only ever carry the discrete values 0, 0.6, 0.7, 1.0 and the
  progress fractions `k/total`; they are modelled exactly as rationals.
* Classifier collaborators (lingua, langdetect) are external libraries; a run
  is parameterised by oracles giving each classifier's answer per text.
  A raised exception that the source does not catch is modelled as `none`
  in an `Option` result, and propagates like an exception would.
* Streamlit side effects (progress bar, error boxes) are modelled by the
  sequence of values the source passes to them.
-/

/-- Python `\w` word character, ASCII fragment: letters, digits, underscore. -/
def isWordChar (c : Char) : Bool := c.isAlphanum || c == '_'

/-- Remove every whitespace character; used to compare texts while ignoring
whitespace-only gaps. -/
def stripWs (l : List Char) : List Char := l.filter (fun c => !c.isWhitespace)

/-- Python `str.strip()`: drop leading and trailing whitespace. -/
def trimChars (l : List Char) : List Char :=
  ((l.dropWhile Char.isWhitespace).reverse.dropWhile Char.isWhitespace).reverse

/-- Python `text.split('\n')` (line 141 of the analyzer): split on every
newline, keeping empty pieces; the empty text yields one empty piece. -/
def splitNl : List Char → List (List Char)
  | [] => [[]]
  | c :: cs =>
    if c = '\n' then [] :: splitNl cs
    else
      match splitNl cs with
      | [] => [[c]]
      | w :: ws => (c :: w) :: ws

/-- Python `sep.join(parts)` for a one-character separator: the parts
interleaved with the separator. -/
def joinSep (sep : Char) : List (List Char) → List Char
  | [] => []
  | [w] => w
  | w :: ws => w ++ sep :: joinSep sep ws

/-- Helper for `pyWords`: scan the text, accumulating the current word
(reversed) in `acc`, emitting it at each non-word character. -/
def wordsAux : List Char → List Char → List (List Char)
  | [], acc => if acc = [] then [] else [acc.reverse]
  | c :: cs, acc =>
    if isWordChar c then wordsAux cs (c :: acc)
    else if acc = [] then wordsAux cs []
    else acc.reverse :: wordsAux cs []

/-- Python `re.findall(r'\b\w+\b', text)` (line 122 of the analyzer): the
maximal runs of word characters, in order. -/
def pyWords (text : List Char) : List (List Char) := wordsAux text []

/-- Fuelled worker for `chunksOf`; `fuel` bounds the number of groups, and is
always instantiated with the length of the list, which suffices whenever the
stride `n` is at least 1. -/
def chunksGo (n : ℕ) : ℕ → List α → List (List α)
  | _, [] => []
  | 0, _ :: _ => []
  | fuel + 1, x :: xs => ((x :: xs).take n) :: chunksGo n fuel ((x :: xs).drop n)

/-- The successive slices `l[i:i+n]` for `i in range(0, len(l), n)`: the
Python slicing loop shared by both segmentation strategies (lines 128 and 147
of the analyzer). Meaningful for stride `n ≥ 1` (Python would not terminate
for `n = 0`). -/
def chunksOf (n : ℕ) (l : List α) : List (List α) := chunksGo n l.length l

/-- The seven languages configured for the lingua detector
(`LANGUAGES`, lines 24-32 of the analyzer), by enum member name. -/
def LANGUAGES : List String :=
  ["LATIN", "ENGLISH", "GERMAN", "FRENCH", "DUTCH", "ITALIAN", "GREEK"]

/-- Partial model of the member names of the lingua library's `Language`
enum, the index set of the subscript `Language[...]` on line 107 of the
analyzer. The real enum has 75 members; we list the seven the app configures
plus SPANISH, a genuine member of the real enum that is not in `LANGUAGES`.
Names outside this list are treated as absent (the subscript raises
`KeyError`); every name listed is a member of the real enum. -/
def linguaEnumMembers : List String := LANGUAGES ++ ["SPANISH"]

/-- Python `str.lower()`, ASCII fragment. -/
def pyLower (s : String) : String := ⟨s.data.map Char.toLower⟩

/-- Python `str.upper()`, ASCII fragment. -/
def pyUpper (s : String) : String := ⟨s.data.map Char.toUpper⟩

/-- Python `Language[name]`: enum lookup by member name, `KeyError`
(modelled as `none`) when `name` is not a member. -/
def languageLookup (name : String) : Option String :=
  if name ∈ linguaEnumMembers then some name else none

/-- `detect_language` (lines 91-109 of the analyzer), the per-segment
consensus resolver, as a function of the two classifier votes: lingua's
detected language (by enum member name) or `none`, and langdetect's language
tag or `none` (langdetect exceptions are caught by the source and turned into
`None`, line 93-96). The outer `Option` models the uncaught `KeyError` that
`Language[langdetect_result.upper()]` raises when the uppercased tag is not a
member of the lingua enum. -/
def detect_language (lingua_result : Option String) (langdetect_result : Option String) :
    Option (Option String × ℚ) :=
  match lingua_result, langdetect_result with
  | some lr, some dr =>
    if pyLower lr = pyLower dr then some (some lr, 1)
    else some (some lr, 7/10)
  | some lr, none => some (some lr, 7/10)
  | none, some dr =>
    match languageLookup (pyUpper dr) with
    | some l => some (some l, 3/5)
    | none => none
  | none, none => some (none, 0)

/-- The two external classifier collaborators, as oracles from a segment's
text to that classifier's answer (`none` = no opinion / caught failure). -/
structure Detectors where
  lingua : List Char → Option String
  langdet : List Char → Option String

/-- One produced segment result: text, consensus label (`none` = Unknown),
confidence. -/
abbrev Seg := List Char × Option String × ℚ

/-- Run `f` over a list left to right, collecting the results; `none` (a
raised exception at some element) aborts the whole computation, exactly as an
uncaught exception aborts the Python `for` loop and discards its
accumulator. -/
def mapMOpt {α β : Type} (f : α → Option β) : List α → Option (List β)
  | [] => some []
  | a :: as =>
    match f a with
    | none => none
    | some b =>
      match mapMOpt f as with
      | none => none
      | some bs => some (b :: bs)

/-- `segment_languages_ngram` (lines 121-138 of the analyzer): tokenize into
words, group every `n` consecutive words joined by single spaces, classify
each chunk. `none` models an exception raised by `detect_language` aborting
the whole call; on `some`, the returned list is exactly the loop's
`segmented` accumulator. -/
def segment_languages_ngram (d : Detectors) (text : List Char) (n : ℕ) :
    Option (List Seg) :=
  mapMOpt (fun ws =>
    let chunk := joinSep ' ' ws
    (detect_language (d.lingua chunk) (d.langdet chunk)).map fun r => (chunk, r.1, r.2))
    (chunksOf n (pyWords text))

/-- `segment_languages_lines` (lines 140-158 of the analyzer): split on
newlines, join every `n` consecutive lines, strip; empty chunks are skipped
without classification, non-empty chunks are classified and appended. -/
def segment_languages_lines (d : Detectors) (text : List Char) (n : ℕ) :
    Option (List Seg) :=
  (mapMOpt (fun ls =>
    let chunk := trimChars (joinSep '\n' ls)
    if chunk = [] then some none
    else (detect_language (d.lingua chunk) (d.langdet chunk)).map fun r =>
      some (chunk, r.1, r.2))
    (chunksOf n (splitNl text))).map (List.filterMap id)

/-- The segment texts the ngram strategy produces: detector-independent. -/
def ngramChunkTexts (text : List Char) (n : ℕ) : List (List Char) :=
  (chunksOf n (pyWords text)).map (joinSep ' ')

/-- The segment texts the lines strategy produces: detector-independent. -/
def linesChunkTexts (text : List Char) (n : ℕ) : List (List Char) :=
  ((chunksOf n (splitNl text)).map fun ls =>
    trimChars (joinSep '\n' ls)).filter (fun c => c ≠ [])

/-- The sequence of fractions a completed `segment_languages_ngram` run passes
to the progress bar: the initial `st.progress(0)` (line 125), then, for the
iteration with loop index `i = k * n`, the value
`min(1.0, (i//n + 1) / total_segments)` with
`total_segments = max(1, len(words) // n)` (lines 126 and 134). -/
def ngramReportedProgress (text : List Char) (n : ℕ) : List ℚ :=
  let words := pyWords text
  let total : ℕ := max 1 (words.length / n)
  0 :: (List.range (chunksOf n words).length).map fun (k : ℕ) =>
    min 1 (((k : ℚ) + 1) / (total : ℚ))

/-- The progress sequence of a completed `segment_languages_lines` run
(lines 144-145 and 154), in the same way. -/
def linesReportedProgress (text : List Char) (n : ℕ) : List ℚ :=
  let lines := splitNl text
  let total : ℕ := max 1 (lines.length / n)
  0 :: (List.range (chunksOf n lines).length).map fun (k : ℕ) =>
    min 1 (((k : ℚ) + 1) / (total : ℚ))

/-- `RATE_LIMIT` (line 35): uploads allowed per window. -/
def RATE_LIMIT : ℕ := 5

/-- `RATE_LIMIT_PERIOD` (line 36): window length in seconds. -/
def RATE_LIMIT_PERIOD : ℚ := 300

/-- The `while` loop of `check_rate_limit` (lines 71-72): pop timestamps from
the front while they are strictly older than the window. -/
def evictOld (now : ℚ) : List ℚ → List ℚ
  | [] => []
  | t :: ts => if RATE_LIMIT_PERIOD < now - t then evictOld now ts else t :: ts

/-- `check_rate_limit` (lines 69-78) at time `now` with current deque
`times`: evict old timestamps, reject if at least `RATE_LIMIT` remain,
otherwise record `now` and admit. Returns (admitted?, new deque). -/
def check_rate_limit (now : ℚ) (times : List ℚ) : Bool × List ℚ :=
  let ts := evictOld now times
  if RATE_LIMIT ≤ ts.length then (false, ts) else (true, ts ++ [now])

/-- Run a sequence of upload requests through the rate limiter, threading the
deque; returns the admission verdicts in order and the final deque. -/
def runUploads (times : List ℚ) (reqs : List ℚ) : List Bool × List ℚ :=
  match reqs with
  | [] => ([], times)
  | t :: ts =>
    let r := check_rate_limit t times
    let rest := runUploads r.2 ts
    (r.1 :: rest.1, rest.2)

/-- Abstract content of an uploaded PDF, as far as
`scan_pdf_for_malicious_content` observes it: whether `PyPDF2.PdfReader`
raises while reading it, whether some page carries a `/JavaScript` or `/JS`
key, and whether the trailer root carries `/EmbeddedFiles`. -/
structure PdfDoc where
  readError : Bool
  pageHasJs : Bool
  hasEmbeddedFiles : Bool

/-- `scan_pdf_for_malicious_content` (lines 51-67): reader failure is caught
and reported as invalid/corrupt; otherwise JavaScript markers, then embedded
files, are rejected; otherwise the file is declared safe. Every internal
exception is caught, so the scan itself never raises. -/
def scan_pdf_for_malicious_content (p : PdfDoc) : Bool × String :=
  if p.readError then (false, "Invalid or corrupted PDF file.")
  else if p.pageHasJs then (false, "PDF contains JavaScript, which could be malicious.")
  else if p.hasEmbeddedFiles then (false, "PDF contains embedded files, which could be malicious.")
  else (true, "PDF appears safe.")

/-- Observable steps of one `main` run (lines 186-288), in program order. -/
inductive Event where
  | rateCheck
  | typeCheck
  | hashCompute
  | sizeCheck
  | createTemp
  | writeTemp
  | contentScan
  | extractText
  | runOcr
  | analyze
  | cleanupTemp
  deriving DecidableEq

/-- Environment of one `main` run: the upload and every outcome of a
collaborator call or fallible operation that steers `main`'s control flow.
`writeTempRaises` models `tmp_file.write` (line 208) failing, e.g. on a full
disk; `extractionRaises` models `fitz` raising during text extraction inside
the `try` block; `analysisRaises` models an exception escaping
`detect_languages` (such as the `KeyError` of `detect_language`). The
Analyze button is taken as pressed. -/
structure Env where
  fileUploaded : Bool
  rateOk : Bool
  validPdf : Bool
  fileSize : ℕ
  writeTempRaises : Bool
  doc : PdfDoc
  hasTextLayer : Bool
  extractionRaises : Bool
  analysisRaises : Bool

/-- The sequence of steps `main` performs in environment `e`, mirroring
lines 186-285: early `return`s cut the rest off; the temp file is created
(line 207) and written (line 208) before the `try` block is entered
(line 211); the `finally` clause (lines 282-285) deletes the temp file on
every exit from the `try` block, including the scan-rejection `return` and
exceptions, but an exception in the write itself propagates before the
`try` is ever entered. -/
def mainTrace (e : Env) : List Event :=
  if e.fileUploaded = false then []
  else
    Event.rateCheck ::
    (if e.rateOk = false then [] else
      Event.typeCheck ::
      (if e.validPdf = false then [] else
        Event.hashCompute ::
        Event.sizeCheck ::
        (if 10 * 1024 * 1024 < e.fileSize then [] else
          Event.createTemp ::
          (if e.writeTempRaises then [] else
            Event.writeTemp ::
            ((Event.contentScan ::
              (if (scan_pdf_for_malicious_content e.doc).1 = false then [] else
                (if e.hasTextLayer then Event.extractText else Event.runOcr) ::
                (if e.extractionRaises then [] else
                  (if e.analysisRaises then [] else [Event.analyze])))) ++
             [Event.cleanupTemp])))))

/-- `lang.name if lang else 'Unknown'` (lines 162 and 177). -/
def languageName : Option String → String
  | some l => l
  | none => "Unknown"

/-- Keys of a `Counter` built by counting a list, in first-occurrence order. -/
def distinctKeys : List String → List String
  | [] => []
  | x :: xs => x :: (distinctKeys xs).filter (fun y => y ≠ x)

/-- `Counter(lang.name if lang else "Unknown" ...)` (line 162): each distinct
name, in first-occurrence order, with its multiplicity. -/
def language_counts (segs : List Seg) : List (String × ℕ) :=
  let names := segs.map fun s => languageName s.2.1
  (distinctKeys names).map fun k => (k, names.count k)

/-- Shorthand: the characters of a string literal. -/
def strChars (s : String) : List Char := s.data

/-- Fixed-two-decimals rendering of a non-negative rational, by flooring to
hundredths. Python's `:.2f`/`:.2%` round half to even on floats; on every
value this development applies it to (the discrete confidence ladder), the
third decimal is zero, so flooring agrees exactly. -/
def formatFixed2 (q : ℚ) : List Char :=
  let n : ℕ := (q * 100).floor.toNat
  (Nat.repr (n / 100)).data ++
    '.' :: ((if n % 100 < 10 then ['0'] else []) ++ (Nat.repr (n % 100)).data)

/-- Python `f"{confidence:.2%}"` (line 178): the value times 100, rendered to
two decimals, with a percent sign. -/
def formatPct2 (q : ℚ) : List Char := formatFixed2 (q * 100) ++ ['%']

/-- `chunk[:50]` plus `'...' if len(chunk) > 50 else ''` (line 176): the
preview text of one segment detail entry. -/
def truncText (chunk : List Char) : List Char :=
  chunk.take 50 ++ (if 50 < chunk.length then ['.', '.', '.'] else [])

/-- One entry of the Segment Details section (lines 175-179), for 1-based
position `i`. -/
def segmentDetail (i : ℕ) (s : Seg) : List Char :=
  strChars "Segment " ++ (Nat.repr i).data ++ strChars ":\n" ++
  strChars "  Text: " ++ truncText s.1 ++ strChars "\n" ++
  strChars "  Detected Language: " ++ strChars (languageName s.2.1) ++ strChars "\n" ++
  strChars "  Confidence: " ++ formatPct2 s.2.2 ++ strChars "\n\n"

/-- The rendered entries of `for i, ... in enumerate(segmented[:10], 1)`
(line 174): the first ten segments, numbered from 1. -/
def segmentDetails (segs : List Seg) : List (List Char) :=
  (segs.take 10).enum.map fun p => segmentDetail (p.1 + 1) p.2

/-- The overflow line (lines 181-182): present exactly when more than ten
segments exist, stating how many are beyond the preview. -/
def overflowLine (segs : List Seg) : List Char :=
  if 10 < segs.length then
    strChars "... and " ++ (Nat.repr (segs.length - 10)).data ++ strChars " more segments\n"
  else []

/-- The Language Distribution lines (lines 168-170). -/
def distributionLines (segs : List Seg) : List Char :=
  ((language_counts segs).map fun p =>
    strChars "  " ++ strChars p.1 ++ strChars ": " ++ (Nat.repr p.2).data ++
      strChars " segments (" ++
      formatFixed2 ((p.2 : ℚ) / (segs.length : ℚ) * 100) ++ strChars "%)\n").flatten

/-- `generate_language_report` (lines 160-184): header, distribution section,
Segment Details section (first ten entries), optional overflow line. -/
def generate_language_report (segs : List Seg) : List Char :=
  strChars "Language Analysis Report\n" ++
  strChars "========================\n\n" ++
  strChars "Language Distribution:\n" ++
  distributionLines segs ++
  strChars "\n" ++
  strChars "Segment Details:\n" ++
  (segmentDetails segs).flatten ++
  overflowLine segs

/-- A detector pair on which both classifiers abstain on every input (lingua
finds no language, langdetect raises and is caught); used to instantiate
runs at concrete inputs. -/
def abstainDetectors : Detectors := ⟨fun _ => none, fun _ => none⟩

/-- A detector pair on which lingua always answers LATIN and langdetect
always abstains. -/
def linguaOnlyLatin : Detectors := ⟨fun _ => some "LATIN", fun _ => none⟩

/-! ## Helper lemmas: chunking -/

theorem chunksGo_nil (n fuel : ℕ) : chunksGo n fuel ([] : List α) = [] := by
  cases fuel <;> rfl

theorem chunksGo_fuel_irrel {n : ℕ} (hn : 1 ≤ n) :
    ∀ fuel₁ fuel₂ (l : List α), l.length ≤ fuel₁ → l.length ≤ fuel₂ →
      chunksGo n fuel₁ l = chunksGo n fuel₂ l := by
  intro fuel₁
  induction fuel₁ with
  | zero =>
    intro fuel₂ l h₁ _
    have hl : l = [] := List.length_eq_zero.mp (Nat.le_zero.mp h₁)
    subst hl
    rw [chunksGo_nil, chunksGo_nil]
  | succ f ih =>
    intro fuel₂ l h₁ h₂
    cases l with
    | nil => rw [chunksGo_nil, chunksGo_nil]
    | cons x xs =>
      cases fuel₂ with
      | zero => simp at h₂
      | succ f₂ =>
        show ((x :: xs).take n) :: chunksGo n f ((x :: xs).drop n) =
          ((x :: xs).take n) :: chunksGo n f₂ ((x :: xs).drop n)
        have hd : ((x :: xs).drop n).length = xs.length + 1 - n := by
          simp [List.length_drop]
        congr 1
        apply ih
        · simp at h₁; omega
        · simp at h₂; omega

theorem chunksOf_cons {n : ℕ} (hn : 1 ≤ n) (x : α) (xs : List α) :
    chunksOf n (x :: xs) = ((x :: xs).take n) :: chunksOf n ((x :: xs).drop n) := by
  show ((x :: xs).take n) :: chunksGo n xs.length ((x :: xs).drop n) =
    ((x :: xs).take n) :: chunksOf n ((x :: xs).drop n)
  congr 1
  apply chunksGo_fuel_irrel hn
  · simp [List.length_drop]; omega
  · exact le_rfl

theorem chunksGo_flatten {n : ℕ} (hn : 1 ≤ n) :
    ∀ fuel (l : List α), l.length ≤ fuel → (chunksGo n fuel l).flatten = l := by
  intro fuel
  induction fuel with
  | zero =>
    intro l h
    have hl : l = [] := List.length_eq_zero.mp (Nat.le_zero.mp h)
    subst hl
    rfl
  | succ f ih =>
    intro l h
    cases l with
    | nil => rfl
    | cons x xs =>
      show ((x :: xs).take n :: chunksGo n f ((x :: xs).drop n)).flatten = x :: xs
      rw [List.flatten_cons, ih _ (by simp [List.length_drop]; simp at h; omega),
        List.take_append_drop]

theorem chunksOf_flatten {n : ℕ} (hn : 1 ≤ n) (l : List α) :
    (chunksOf n l).flatten = l :=
  chunksGo_flatten hn l.length l le_rfl

theorem chunksGo_mem_ne_nil {n : ℕ} (hn : 1 ≤ n) :
    ∀ fuel (l : List α) c, c ∈ chunksGo n fuel l → c ≠ [] := by
  intro fuel
  induction fuel with
  | zero =>
    intro l c hc
    cases l <;> simp [chunksGo] at hc
  | succ f ih =>
    intro l c hc
    cases l with
    | nil => simp [chunksGo] at hc
    | cons x xs =>
      rcases List.mem_cons.mp hc with h | h
      · subst h
        cases n with
        | zero => omega
        | succ m => simp
      · exact ih _ c h

theorem chunksOf_mem_ne_nil {n : ℕ} (hn : 1 ≤ n) (l : List α) (c : List α)
    (hc : c ∈ chunksOf n l) : c ≠ [] :=
  chunksGo_mem_ne_nil hn l.length l c hc

theorem chunksGo_mem_length_le (n : ℕ) :
    ∀ fuel (l : List α) c, c ∈ chunksGo n fuel l → c.length ≤ n := by
  intro fuel
  induction fuel with
  | zero =>
    intro l c hc
    cases l <;> simp [chunksGo] at hc
  | succ f ih =>
    intro l c hc
    cases l with
    | nil => simp [chunksGo] at hc
    | cons x xs =>
      rcases List.mem_cons.mp hc with h | h
      · subst h
        simp [List.length_take]
      · exact ih _ c h

theorem one_le_chunksOf_length {n : ℕ} (hn : 1 ≤ n) (l : List α) (hl : l ≠ []) :
    1 ≤ (chunksOf n l).length := by
  cases l with
  | nil => exact absurd rfl hl
  | cons x xs => rw [chunksOf_cons hn]; simp

theorem div_le_chunksOf_length {n : ℕ} (hn : 1 ≤ n) (l : List α) :
    l.length / n ≤ (chunksOf n l).length := by
  have hlen : l.length ≤ (chunksOf n l).length * n := by
    conv_lhs => rw [← chunksOf_flatten hn l]
    rw [List.length_flatten]
    calc ((chunksOf n l).map List.length).sum
        ≤ ((chunksOf n l).map List.length).length • n := by
          apply List.sum_le_card_nsmul
          intro x hx
          rcases List.mem_map.mp hx with ⟨c, hc, rfl⟩
          exact chunksGo_mem_length_le n l.length l c hc
      _ = (chunksOf n l).length * n := by simp [smul_eq_mul]
  calc l.length / n ≤ ((chunksOf n l).length * n) / n := Nat.div_le_div_right hlen
    _ = (chunksOf n l).length := Nat.mul_div_cancel _ (by omega)

/-! ## Helper lemmas: words and whitespace -/

theorem wordsAux_flatten :
    ∀ (cs acc : List Char),
      (wordsAux cs acc).flatten = acc.reverse ++ cs.filter isWordChar := by
  intro cs
  induction cs with
  | nil =>
    intro acc
    by_cases h : acc = [] <;> simp [wordsAux, h]
  | cons c cs ih =>
    intro acc
    by_cases hw : isWordChar c
    · simp [wordsAux, hw, ih, List.filter_cons]
    · by_cases ha : acc = [] <;> simp [wordsAux, hw, ha, ih, List.filter_cons]

theorem wordsAux_mem_wordlike :
    ∀ (cs acc : List Char), (∀ c ∈ acc, isWordChar c) →
      ∀ w ∈ wordsAux cs acc, w ≠ [] ∧ ∀ c ∈ w, isWordChar c := by
  intro cs
  induction cs with
  | nil =>
    intro acc hacc w hw
    by_cases h : acc = []
    · simp [wordsAux, h] at hw
    · simp [wordsAux, h] at hw
      subst hw
      refine ⟨by simpa using h, ?_⟩
      intro c hc
      exact hacc c (by simpa using hc)
  | cons c cs ih =>
    intro acc hacc w hw
    by_cases hwc : isWordChar c
    · refine ih (c :: acc) ?_ w (by simpa [wordsAux, hwc] using hw)
      intro x hx
      rcases List.mem_cons.mp hx with rfl | hx
      · exact hwc
      · exact hacc x hx
    · by_cases ha : acc = []
      · exact ih [] (by simp) w (by simpa [wordsAux, hwc, ha] using hw)
      · rcases List.mem_cons.mp (by simpa [wordsAux, hwc, ha] using hw) with rfl | hmem
        · refine ⟨by simpa using ha, ?_⟩
          intro x hx
          exact hacc x (by simpa using hx)
        · exact ih [] (by simp) w hmem

theorem pyWords_flatten (t : List Char) :
    (pyWords t).flatten = t.filter isWordChar :=
  wordsAux_flatten t []

theorem pyWords_wordlike (t : List Char) :
    ∀ w ∈ pyWords t, w ≠ [] ∧ ∀ c ∈ w, isWordChar c :=
  wordsAux_mem_wordlike t [] (by simp)

theorem wordsAux_append_word :
    ∀ (w rest acc : List Char), (∀ c ∈ w, isWordChar c) →
      wordsAux (w ++ rest) acc = wordsAux rest (w.reverse ++ acc) := by
  intro w
  induction w with
  | nil => intro rest acc _; simp
  | cons c w ih =>
    intro rest acc hw
    have hc : isWordChar c := hw c (by simp)
    show wordsAux (c :: (w ++ rest)) acc = _
    rw [show wordsAux (c :: (w ++ rest)) acc = wordsAux (w ++ rest) (c :: acc) by
      simp [wordsAux, hc]]
    rw [ih rest (c :: acc) (fun x hx => hw x (by simp [hx]))]
    simp

theorem isWordChar_not_ws {c : Char} (h : isWordChar c = true) :
    c.isWhitespace = false := by
  by_contra hws
  have hws' : c.isWhitespace = true := by
    cases hw : c.isWhitespace
    · exact absurd hw hws
    · rfl
  have hcases : ((c = ' ' ∨ c = '\t') ∨ c = '\r') ∨ c = '\n' := by
    simpa [Char.isWhitespace] using hws'
  rcases hcases with ((rfl | rfl) | rfl) | rfl <;> simp [isWordChar] at h

theorem pyWords_joinSep_words :
    ∀ (ws : List (List Char)), (∀ w ∈ ws, w ≠ [] ∧ ∀ c ∈ w, isWordChar c) →
      pyWords (joinSep ' ' ws) = ws := by
  intro ws
  induction ws with
  | nil => intro _; rfl
  | cons w ws ih =>
    intro h
    have hw := h w (by simp)
    cases ws with
    | nil =>
      show pyWords (joinSep ' ' [w]) = [w]
      show wordsAux w [] = [w]
      rw [show wordsAux w [] = wordsAux (w ++ []) [] by simp,
        wordsAux_append_word w [] [] hw.2]
      simp [wordsAux, hw.1]
    | cons w₂ ws₂ =>
      show wordsAux (w ++ ' ' :: joinSep ' ' (w₂ :: ws₂)) [] = w :: w₂ :: ws₂
      rw [wordsAux_append_word w _ [] hw.2]
      have hsp : isWordChar ' ' = false := by decide
      rw [show wordsAux (' ' :: joinSep ' ' (w₂ :: ws₂)) (w.reverse ++ []) =
          (w.reverse ++ []).reverse :: wordsAux (joinSep ' ' (w₂ :: ws₂)) [] by
        simp [wordsAux, hsp, hw.1]]
      have := ih (fun x hx => h x (by simp [hx]))
      simp only [pyWords] at this
      rw [this]
      simp

theorem splitNl_ne_nil (l : List Char) : splitNl l ≠ [] := by
  cases l with
  | nil => simp [splitNl]
  | cons c cs =>
    by_cases h : c = '\n'
    · simp [splitNl, h]
    · simp only [splitNl, h, if_false]
      rcases splitNl cs with _ | ⟨w, ws⟩ <;> simp

theorem joinSep_splitNl (l : List Char) : joinSep '\n' (splitNl l) = l := by
  induction l with
  | nil => rfl
  | cons c cs ih =>
    by_cases h : c = '\n'
    · subst h
      show joinSep '\n' ([] :: splitNl cs) = '\n' :: cs
      rcases hne : splitNl cs with _ | ⟨w, ws⟩
      · exact absurd hne (splitNl_ne_nil cs)
      · show joinSep '\n' ([] :: w :: ws) = '\n' :: cs
        show [] ++ '\n' :: joinSep '\n' (w :: ws) = '\n' :: cs
        rw [← hne, ih]
        rfl
    · show joinSep '\n' (splitNl (c :: cs)) = c :: cs
      rw [show splitNl (c :: cs) = match splitNl cs with
          | [] => [[c]]
          | w :: ws => (c :: w) :: ws by simp [splitNl, h]]
      rcases hne : splitNl cs with _ | ⟨w, ws⟩
      · exact absurd hne (splitNl_ne_nil cs)
      · show joinSep '\n' ((c :: w) :: ws) = c :: cs
        cases ws with
        | nil =>
          show c :: w = c :: cs
          have hj : joinSep '\n' (splitNl cs) = cs := ih
          rw [hne] at hj
          simpa [joinSep] using hj
        | cons w₂ ws₂ =>
          show (c :: w) ++ '\n' :: joinSep '\n' (w₂ :: ws₂) = c :: cs
          have hj : joinSep '\n' (splitNl cs) = cs := ih
          rw [hne] at hj
          have this : joinSep '\n' (w :: w₂ :: ws₂) = cs := hj
          rw [show (c :: w) ++ '\n' :: joinSep '\n' (w₂ :: ws₂) =
            c :: (w ++ '\n' :: joinSep '\n' (w₂ :: ws₂)) by simp]
          rw [show w ++ '\n' :: joinSep '\n' (w₂ :: ws₂) = joinSep '\n' (w :: w₂ :: ws₂) from rfl]
          rw [this]

theorem stripWs_append (a b : List Char) :
    stripWs (a ++ b) = stripWs a ++ stripWs b := by
  simp [stripWs, List.filter_append]

theorem stripWs_joinSep_nl (parts : List (List Char)) :
    stripWs (joinSep '\n' parts) = (parts.map stripWs).flatten := by
  induction parts with
  | nil => rfl
  | cons w ws ih =>
    cases ws with
    | nil => simp [joinSep]
    | cons w₂ ws₂ =>
      show stripWs (w ++ '\n' :: joinSep '\n' (w₂ :: ws₂)) = _
      rw [stripWs_append]
      have hnl : stripWs ('\n' :: joinSep '\n' (w₂ :: ws₂)) =
          stripWs (joinSep '\n' (w₂ :: ws₂)) := by
        simp [stripWs, List.filter_cons]
      rw [hnl, ih]
      simp

theorem filter_not_dropWhile (p : Char → Bool) (l : List Char) :
    (l.dropWhile p).filter (fun c => !p c) = l.filter (fun c => !p c) := by
  induction l with
  | nil => rfl
  | cons c cs ih =>
    by_cases h : p c
    · simp [List.dropWhile_cons, h, List.filter_cons, ih]
    · simp [List.dropWhile_cons, h, List.filter_cons]

theorem stripWs_trimChars (l : List Char) : stripWs (trimChars l) = stripWs l := by
  show (((l.dropWhile Char.isWhitespace).reverse.dropWhile
    Char.isWhitespace).reverse).filter (fun c => !c.isWhitespace) = _
  rw [List.filter_reverse, filter_not_dropWhile, List.filter_reverse,
    List.reverse_reverse, filter_not_dropWhile]
  rfl

theorem trimChars_eq_nil (l : List Char) (h : stripWs l = []) : trimChars l = [] := by
  have hall : ∀ c ∈ l, c.isWhitespace := by
    intro c hc
    have := List.filter_eq_nil_iff.mp h c hc
    simpa using this
  show ((l.dropWhile Char.isWhitespace).reverse.dropWhile Char.isWhitespace).reverse = []
  rw [List.dropWhile_eq_nil_iff.mpr hall]
  rfl

theorem trimChars_ne_nil_of_trim (l : List Char) (h : trimChars l ≠ []) :
    trimChars (trimChars l) ≠ [] := by
  intro hnil
  have h1 : stripWs (trimChars l) = [] := by
    have := stripWs_trimChars (trimChars l)
    rw [hnil] at this
    exact this.symm
  rw [stripWs_trimChars] at h1
  exact h (trimChars_eq_nil l h1)

/-! ## Helper lemmas: collecting segment results -/

theorem mapMOpt_eq_some_forall₂ {α β : Type} (f : α → Option β) :
    ∀ (cs : List α) (rs : List β), mapMOpt f cs = some rs →
      List.Forall₂ (fun a b => f a = some b) cs rs := by
  intro cs
  induction cs with
  | nil =>
    intro rs h
    simp [mapMOpt] at h
    subst h
    exact List.Forall₂.nil
  | cons c cs ih =>
    intro rs h
    rcases hc : f c with _ | y <;> rw [mapMOpt, hc] at h
    · simp at h
    · rcases hrest : mapMOpt f cs with _ | ys <;> rw [hrest] at h
      · simp at h
      · simp at h
        subst h
        exact List.Forall₂.cons hc (ih ys hrest)

theorem forall₂_map_eq {α β γ : Type} {R : α → β → Prop} (g : α → γ) (h : β → γ)
    (hR : ∀ a b, R a b → h b = g a) :
    ∀ {cs : List α} {rs : List β}, List.Forall₂ R cs rs → rs.map h = cs.map g := by
  intro cs rs hf
  induction hf with
  | nil => rfl
  | cons hab _ ih => simp [hR _ _ hab, ih]

theorem forall₂_mem_right {α β : Type} {R : α → β → Prop} :
    ∀ {cs : List α} {rs : List β}, List.Forall₂ R cs rs →
      ∀ b ∈ rs, ∃ a ∈ cs, R a b := by
  intro cs rs hf
  induction hf with
  | nil => intro b hb; simp at hb
  | cons hab _ ih =>
    intro b hb
    rcases List.mem_cons.mp hb with rfl | hb
    · exact ⟨_, by simp, hab⟩
    · rcases ih b hb with ⟨a, ha, hr⟩
      exact ⟨a, by simp [ha], hr⟩

theorem detect_conf_ladder (a b : Option String) (r : Option String × ℚ)
    (h : detect_language a b = some r) :
    r.2 = 0 ∨ r.2 = 3/5 ∨ r.2 = 7/10 ∨ r.2 = 1 := by
  rcases a with _ | lr <;> rcases b with _ | dr
  · simp [detect_language] at h
    rw [← h]
    left; rfl
  · rw [detect_language] at h
    rcases hx : languageLookup (pyUpper dr) with _ | l <;> rw [hx] at h
    · simp at h
    · simp at h
      rw [← h]
      right; left; rfl
  · simp [detect_language] at h
    rw [← h]
    right; right; left; rfl
  · rw [detect_language] at h
    by_cases hlow : pyLower lr = pyLower dr
    · rw [if_pos hlow] at h
      simp at h
      rw [← h]
      right; right; right; rfl
    · rw [if_neg hlow] at h
      simp at h
      rw [← h]
      right; right; left; rfl

theorem segment_ngram_texts (d : Detectors) (text : List Char) (n : ℕ) (segs : List Seg)
    (h : segment_languages_ngram d text n = some segs) :
    segs.map (fun s => s.1) = ngramChunkTexts text n := by
  have hf := mapMOpt_eq_some_forall₂ _ _ _ h
  exact forall₂_map_eq (joinSep ' ') (fun s => s.1) (by
    intro ws s hs
    simp only [Option.map_eq_some'] at hs
    rcases hs with ⟨r, _, hr⟩
    rw [← hr]) hf

theorem segment_ngram_conf (d : Detectors) (text : List Char) (n : ℕ) (segs : List Seg)
    (h : segment_languages_ngram d text n = some segs) :
    ∀ s ∈ segs, s.2.2 = 0 ∨ s.2.2 = 3/5 ∨ s.2.2 = 7/10 ∨ s.2.2 = 1 := by
  have hf := mapMOpt_eq_some_forall₂ _ _ _ h
  intro s hs
  rcases forall₂_mem_right hf s hs with ⟨ws, _, hR⟩
  simp only [Option.map_eq_some'] at hR
  rcases hR with ⟨r, hdet, hr⟩
  have := detect_conf_ladder _ _ _ hdet
  rw [← hr]
  simpa using this

theorem lines_body_cases (d : Detectors) (ls : List (List Char)) (ob : Option Seg)
    (h : (let chunk := trimChars (joinSep '\n' ls)
          if chunk = [] then some none
          else (detect_language (d.lingua chunk) (d.langdet chunk)).map fun r =>
            some (chunk, r.1, r.2)) = some ob) :
    (trimChars (joinSep '\n' ls) = [] ∧ ob = none) ∨
      (trimChars (joinSep '\n' ls) ≠ [] ∧ ∃ r,
        detect_language (d.lingua (trimChars (joinSep '\n' ls)))
            (d.langdet (trimChars (joinSep '\n' ls))) = some r ∧
        ob = some (trimChars (joinSep '\n' ls), r.1, r.2)) := by
  have h' : (if trimChars (joinSep '\n' ls) = [] then some none
      else (detect_language (d.lingua (trimChars (joinSep '\n' ls)))
          (d.langdet (trimChars (joinSep '\n' ls)))).map fun r =>
        some (trimChars (joinSep '\n' ls), r.1, r.2)) = some ob := h
  by_cases hch : trimChars (joinSep '\n' ls) = []
  · left
    rw [if_pos hch] at h'
    exact ⟨hch, by simpa using h'.symm⟩
  · right
    refine ⟨hch, ?_⟩
    rw [if_neg hch] at h'
    rcases hdet : detect_language (d.lingua (trimChars (joinSep '\n' ls)))
        (d.langdet (trimChars (joinSep '\n' ls))) with _ | r <;> rw [hdet] at h'
    · simp at h'
    · refine ⟨r, rfl, ?_⟩
      simpa using h'.symm

theorem lines_forall₂_filter (d : Detectors) :
    ∀ {cs : List (List (List Char))} {os : List (Option Seg)},
      List.Forall₂ (fun ls ob =>
        (trimChars (joinSep '\n' ls) = [] ∧ ob = none) ∨
          (trimChars (joinSep '\n' ls) ≠ [] ∧ ∃ r,
            detect_language (d.lingua (trimChars (joinSep '\n' ls)))
                (d.langdet (trimChars (joinSep '\n' ls))) = some r ∧
            ob = some (trimChars (joinSep '\n' ls), r.1, r.2))) cs os →
      (os.filterMap id).map (fun s => s.1) =
        (cs.map fun ls => trimChars (joinSep '\n' ls)).filter (fun c => c ≠ []) := by
  intro cs os hf
  induction hf with
  | nil => rfl
  | @cons a b l₁ l₂ hab _ ih =>
    rcases hab with ⟨hnil, rfl⟩ | ⟨hne, r, _, rfl⟩
    · simp [List.filterMap_cons, List.filter_cons, hnil, ih]
    · simp [List.filterMap_cons, List.filter_cons, hne, ih]

theorem segment_lines_texts (d : Detectors) (text : List Char) (n : ℕ) (segs : List Seg)
    (h : segment_languages_lines d text n = some segs) :
    segs.map (fun s => s.1) = linesChunkTexts text n := by
  unfold segment_languages_lines at h
  rcases hm : mapMOpt (fun ls =>
      let chunk := trimChars (joinSep '\n' ls)
      if chunk = [] then some none
      else (detect_language (d.lingua chunk) (d.langdet chunk)).map fun r =>
        some (chunk, r.1, r.2)) (chunksOf n (splitNl text)) with _ | os <;> rw [hm] at h
  · simp at h
  · simp at h
    subst h
    have hf := (mapMOpt_eq_some_forall₂ _ _ _ hm).imp (fun {a b} hab => lines_body_cases d a b hab)
    exact lines_forall₂_filter d hf

theorem segment_lines_conf (d : Detectors) (text : List Char) (n : ℕ) (segs : List Seg)
    (h : segment_languages_lines d text n = some segs) :
    ∀ s ∈ segs, s.2.2 = 0 ∨ s.2.2 = 3/5 ∨ s.2.2 = 7/10 ∨ s.2.2 = 1 := by
  unfold segment_languages_lines at h
  rcases hm : mapMOpt (fun ls =>
      let chunk := trimChars (joinSep '\n' ls)
      if chunk = [] then some none
      else (detect_language (d.lingua chunk) (d.langdet chunk)).map fun r =>
        some (chunk, r.1, r.2)) (chunksOf n (splitNl text)) with _ | os <;> rw [hm] at h
  · simp at h
  · simp at h
    subst h
    have hf := (mapMOpt_eq_some_forall₂ _ _ _ hm).imp (fun {a b} hab => lines_body_cases d a b hab)
    intro s hs
    rcases List.mem_filterMap.mp hs with ⟨ob, hob, hid⟩
    have hob' : ob = some s := hid
    subst hob'
    rcases forall₂_mem_right hf _ hob with ⟨ls, _, hR⟩
    rcases hR with ⟨_, hcontra⟩ | ⟨_, r, hdet, heq⟩
    · simp at hcontra
    · have hr : s = (trimChars (joinSep '\n' ls), r.1, r.2) := by
        injection heq with h1
      subst hr
      simpa using detect_conf_ladder _ _ _ hdet

theorem chunksOf_mem_mem {n : ℕ} (hn : 1 ≤ n) {l : List α} {c : List α}
    (hc : c ∈ chunksOf n l) : ∀ x ∈ c, x ∈ l := by
  intro x hx
  rw [← chunksOf_flatten hn l]
  exact List.mem_flatten.mpr ⟨c, hc, hx⟩

theorem flatten_filter_ne_nil :
    ∀ (xs : List (List Char)), (xs.filter (fun c => c ≠ [])).flatten = xs.flatten := by
  intro xs
  induction xs with
  | nil => rfl
  | cons x xs ih =>
    by_cases hx : x = []
    · subst hx
      rw [List.filter_cons, if_neg (by simp), List.flatten_cons, List.nil_append, ih]
    · rw [List.filter_cons, if_pos (by simp [hx]), List.flatten_cons, List.flatten_cons, ih]

theorem stripWs_flatten :
    ∀ (xs : List (List Char)), stripWs xs.flatten = (xs.map stripWs).flatten := by
  intro xs
  induction xs with
  | nil => rfl
  | cons x xs ih => simp [List.flatten_cons, stripWs_append, ih]

theorem flatten_map_flatten {α : Type} (f : List α → List α) :
    ∀ (L : List (List (List α))),
      (L.map (fun ls => (ls.map f).flatten)).flatten = ((L.flatten).map f).flatten := by
  intro L
  induction L with
  | nil => rfl
  | cons x xs ih => simp [List.flatten_cons, List.map_append, ih]

theorem joinSep_head_append (sep : Char) (w : List Char) (ws : List (List Char)) :
    ∃ t, joinSep sep (w :: ws) = w ++ t := by
  cases ws with
  | nil => exact ⟨[], by simp [joinSep]⟩
  | cons w₂ ws₂ => exact ⟨sep :: joinSep sep (w₂ :: ws₂), rfl⟩

theorem stripWs_wordlike (w : List Char) (hw : ∀ c ∈ w, isWordChar c) :
    stripWs w = w := by
  unfold stripWs
  rw [List.filter_eq_self]
  intro c hc
  simp [isWordChar_not_ws (hw c hc)]

theorem ngram_chunk_text_strip_ne_nil {n : ℕ} (hn : 1 ≤ n) (text : List Char)
    (s : List Char) (hs : s ∈ ngramChunkTexts text n) : stripWs s ≠ [] := by
  unfold ngramChunkTexts at hs
  rcases List.mem_map.mp hs with ⟨ws, hws, rfl⟩
  have hne : ws ≠ [] := chunksOf_mem_ne_nil hn _ ws hws
  rcases hw : ws with _ | ⟨w, rest⟩
  · exact absurd hw hne
  · subst hw
    rcases joinSep_head_append ' ' w rest with ⟨t, ht⟩
    rw [ht, stripWs_append]
    have hwword := pyWords_wordlike text w (chunksOf_mem_mem hn hws w (by simp))
    rw [stripWs_wordlike w hwword.2]
    simp [hwword.1]

theorem trimChars_ne_nil_of_stripWs (l : List Char) (h : stripWs l ≠ []) :
    trimChars l ≠ [] := by
  intro hnil
  apply h
  rw [← stripWs_trimChars l, hnil]
  rfl

/-! ## Helper lemmas: progress fractions -/

theorem progress_pairwise (K total : ℕ) (htotal : 1 ≤ total) :
    List.Pairwise (· ≤ ·)
      ((0 : ℚ) :: (List.range K).map fun (k : ℕ) => min 1 (((k : ℚ) + 1) / (total : ℚ))) := by
  have hpos : (0 : ℚ) < (total : ℚ) := by
    have : (0 : ℕ) < total := by omega
    exact_mod_cast this
  constructor
  · intro q hq
    rcases List.mem_map.mp hq with ⟨k, _, rfl⟩
    exact le_min zero_le_one (div_nonneg (by positivity) (le_of_lt hpos))
  · rw [List.pairwise_map]
    apply List.Pairwise.imp ?_ (List.pairwise_lt_range K)
    intro a b hab
    have hc : (a : ℚ) + 1 ≤ (b : ℚ) + 1 := by
      have : (a : ℚ) ≤ (b : ℚ) := by exact_mod_cast le_of_lt hab
      linarith
    exact min_le_min le_rfl (by gcongr)

theorem progress_mem_bounds (K total : ℕ) (htotal : 1 ≤ total) :
    ∀ q ∈ ((0 : ℚ) :: (List.range K).map fun (k : ℕ) => min 1 (((k : ℚ) + 1) / (total : ℚ))),
      0 ≤ q ∧ q ≤ 1 := by
  have hpos : (0 : ℚ) < (total : ℚ) := by
    have : (0 : ℕ) < total := by omega
    exact_mod_cast this
  intro q hq
  rcases List.mem_cons.mp hq with rfl | hq
  · exact ⟨le_rfl, zero_le_one⟩
  · rcases List.mem_map.mp hq with ⟨k, _, rfl⟩
    exact ⟨le_min zero_le_one (div_nonneg (by positivity) (le_of_lt hpos)), min_le_left _ _⟩

theorem progress_getLast (K total : ℕ) (htotal : 1 ≤ total) (hK : 1 ≤ K)
    (hKt : total ≤ K) :
    ((0 : ℚ) :: (List.range K).map fun (k : ℕ) =>
      min 1 (((k : ℚ) + 1) / (total : ℚ))).getLast? = some 1 := by
  have hpos : (0 : ℚ) < (total : ℚ) := by
    have : (0 : ℕ) < total := by omega
    exact_mod_cast this
  obtain ⟨m, rfl⟩ : ∃ m, K = m + 1 := ⟨K - 1, by omega⟩
  rw [List.range_succ, List.map_append, List.map_singleton]
  rw [show ((0 : ℚ) :: (((List.range m).map fun (k : ℕ) =>
        min 1 (((k : ℚ) + 1) / (total : ℚ))) ++
      [min 1 (((m : ℚ) + 1) / (total : ℚ))])) =
    ((0 : ℚ) :: (List.range m).map fun (k : ℕ) => min 1 (((k : ℚ) + 1) / (total : ℚ))) ++
      [min 1 (((m : ℚ) + 1) / (total : ℚ))] from rfl]
  rw [List.getLast?_concat]
  have h1 : (1 : ℚ) ≤ ((m : ℚ) + 1) / (total : ℚ) := by
    rw [one_le_div hpos]
    exact_mod_cast hKt
  rw [min_eq_left h1]

/-! ## Helper lemmas: rate limiter -/

theorem evictOld_length_le (now : ℚ) : ∀ ts : List ℚ, (evictOld now ts).length ≤ ts.length := by
  intro ts
  induction ts with
  | nil => simp [evictOld]
  | cons t ts ih =>
    rw [evictOld]
    by_cases h : RATE_LIMIT_PERIOD < now - t
    · rw [if_pos h]
      exact le_trans ih (by simp)
    · rw [if_neg h]

theorem evictOld_all_fresh (now : ℚ) (ts : List ℚ)
    (h : ∀ t ∈ ts, now - t ≤ RATE_LIMIT_PERIOD) : evictOld now ts = ts := by
  cases ts with
  | nil => rfl
  | cons t ts' => rw [evictOld, if_neg (not_lt.mpr (h t (by simp)))]

theorem check_rate_limit_admit (now : ℚ) (ts : List ℚ)
    (hfresh : ∀ t ∈ ts, now - t ≤ RATE_LIMIT_PERIOD) (hlen : ts.length < RATE_LIMIT) :
    check_rate_limit now ts = (true, ts ++ [now]) := by
  show (if RATE_LIMIT ≤ (evictOld now ts).length then ((false, evictOld now ts) : Bool × List ℚ)
    else (true, evictOld now ts ++ [now])) = (true, ts ++ [now])
  rw [evictOld_all_fresh now ts hfresh, if_neg (not_le.mpr hlen)]

theorem check_rate_limit_reject (now : ℚ) (ts : List ℚ)
    (hfresh : ∀ t ∈ ts, now - t ≤ RATE_LIMIT_PERIOD) (hlen : RATE_LIMIT ≤ ts.length) :
    check_rate_limit now ts = (false, ts) := by
  show (if RATE_LIMIT ≤ (evictOld now ts).length then ((false, evictOld now ts) : Bool × List ℚ)
    else (true, evictOld now ts ++ [now])) = (false, ts)
  rw [evictOld_all_fresh now ts hfresh, if_pos hlen]

theorem check_rate_limit_admit_old_head (now t : ℚ) (ts : List ℚ)
    (hold : RATE_LIMIT_PERIOD < now - t) (hlen : ts.length < RATE_LIMIT) :
    (check_rate_limit now (t :: ts)).1 = true := by
  have h1 : evictOld now (t :: ts) = evictOld now ts := by rw [evictOld, if_pos hold]
  show (if RATE_LIMIT ≤ (evictOld now (t :: ts)).length
      then ((false, evictOld now (t :: ts)) : Bool × List ℚ)
      else (true, evictOld now (t :: ts) ++ [now])).1 = true
  rw [h1, if_neg (not_le.mpr (lt_of_le_of_lt (evictOld_length_le now ts) hlen))]

/-! ## Claim C1 -/

/-- C1, counterexample: a segment on which exactly one classifier votes
(lingua answers LATIN, langdetect abstains) receives confidence 7/10, not
3/5 = 0.6 as the claim states: the code (line 105) gives the lingua-only
case 0.7, reserving 0.6 for the langdetect-only case. -/
theorem C1_counterexample :
    segment_languages_lines linguaOnlyLatin "x".data 1 =
      some [("x".data, some "LATIN", 7/10)] ∧ (7/10 : ℚ) ≠ 3/5 := by
  refine ⟨rfl, ?_⟩
  norm_num

/-- C1 (amended): when exactly one classifier returns a label, the consensus
depends on which one it is: lingua alone yields that label with confidence
0.7 (line 105); langdetect alone yields the looked-up label with confidence
0.6 (line 107), provided the uppercased tag is a member of the lingua
Language enum. -/
theorem C1_single_vote_confidence (lr tag : String) :
    detect_language (some lr) none = some (some lr, 7/10) ∧
      (pyUpper tag ∈ linguaEnumMembers →
        detect_language none (some tag) = some (some (pyUpper tag), 3/5)) := by
  refine ⟨rfl, ?_⟩
  intro hmem
  have hl : languageLookup (pyUpper tag) = some (pyUpper tag) := by
    unfold languageLookup
    rw [if_pos hmem]
  simp [detect_language, hl]

/-- Witness for C1 at lingua result LATIN and langdetect tag spanish. -/
theorem C1_single_vote_confidence_witness :
    detect_language (some "LATIN") none = some (some "LATIN", 7/10) ∧
      detect_language none (some "spanish") = some (some (pyUpper "spanish"), 3/5) :=
  ⟨(C1_single_vote_confidence "LATIN" "spanish").1,
   (C1_single_vote_confidence "LATIN" "spanish").2 (by decide)⟩

/-! ## Claim C10 -/

/-- C10, counterexample: the tag spanish uppercases to SPANISH, which is not
one of the seven configured members, yet the resolution step does not raise:
it returns the label SPANISH with confidence 0.6, because `Language[...]`
indexes lingua's full 75-member enum, not the seven-member `LANGUAGES`
configuration. -/
theorem C10_counterexample :
    detect_language none (some "spanish") = some (some "SPANISH", 3/5) ∧
      ("SPANISH" : String) ∉ LANGUAGES := by
  have hmem : pyUpper "spanish" ∈ linguaEnumMembers := by decide
  have hup : pyUpper "spanish" = "SPANISH" := by decide
  have hl : languageLookup (pyUpper "spanish") = some (pyUpper "spanish") := by
    unfold languageLookup
    rw [if_pos hmem]
  rw [hup] at hl
  constructor
  · simp [detect_language, hl, hup]
  · decide

/-- C10 (amended): when lingua abstains and langdetect returns a tag, the
resolver looks the uppercased tag up in lingua's full Language enum (of
which `linguaEnumMembers` is the partial model used here): tags whose
uppercase form is not a member make the step raise `KeyError` (modelled as
`none`) instead of returning a label or an Unknown/0.0 result, while member
tags — including members such as SPANISH that are not among the seven
configured languages — resolve to that label with confidence 0.6. -/
theorem C10_lookup_domain (tag : String) :
    (pyUpper tag ∉ linguaEnumMembers → detect_language none (some tag) = none) ∧
      (pyUpper tag ∈ linguaEnumMembers →
        detect_language none (some tag) = some (some (pyUpper tag), 3/5)) := by
  constructor
  · intro hmem
    have hl : languageLookup (pyUpper tag) = none := by
      unfold languageLookup
      rw [if_neg hmem]
    simp [detect_language, hl]
  · intro hmem
    have hl : languageLookup (pyUpper tag) = some (pyUpper tag) := by
      unfold languageLookup
      rw [if_pos hmem]
    simp [detect_language, hl]

/-- Witness for C10 at the ISO tag en (raises) and at spanish (resolves). -/
theorem C10_lookup_domain_witness :
    detect_language none (some "en") = none ∧
      detect_language none (some "spanish") = some (some (pyUpper "spanish"), 3/5) :=
  ⟨(C10_lookup_domain "en").1 (by decide),
   (C10_lookup_domain "spanish").2 (by decide)⟩

/-! ## Claim C3 -/

/-- C3: every confidence attached to a segment result produced by either
segmentation strategy, for any detectors, text and group size, is one of
0.0, 0.6, 0.7, 1.0. -/
theorem C3_confidence_ladder (d : Detectors) (text : List Char) (n : ℕ)
    (segs : List Seg)
    (h : segment_languages_ngram d text n = some segs ∨
      segment_languages_lines d text n = some segs) :
    ∀ s ∈ segs, s.2.2 = 0 ∨ s.2.2 = 3/5 ∨ s.2.2 = 7/10 ∨ s.2.2 = 1 := by
  rcases h with h | h
  · exact segment_ngram_conf d text n segs h
  · exact segment_lines_conf d text n segs h

/-- Witness for C3: the one segment of an ngram run on the text a carries
confidence 0. -/
theorem C3_confidence_ladder_witness :
    (0 : ℚ) = 0 ∨ (0 : ℚ) = 3/5 ∨ (0 : ℚ) = 7/10 ∨ (0 : ℚ) = 1 :=
  C3_confidence_ladder abstainDetectors "a".data 1 [("a".data, none, 0)]
    (Or.inl rfl) ("a".data, none, 0) (by simp)

/-! ## Claim C8 -/

/-- C8: segmenting the text Hic liber est. with the ngram strategy at group
size 3 produces exactly one segment, whose text is Hic liber est (the word
tokens joined by single spaces; the final period is not part of any
token). -/
theorem C8_hic_liber_est (d : Detectors) (segs : List Seg)
    (h : segment_languages_ngram d "Hic liber est.".data 3 = some segs) :
    segs.length = 1 ∧ segs.map (fun s => s.1) = ["Hic liber est".data] := by
  have ht := segment_ngram_texts d _ 3 segs h
  have hc : ngramChunkTexts "Hic liber est.".data 3 = ["Hic liber est".data] := rfl
  rw [hc] at ht
  refine ⟨?_, ht⟩
  have hlen := congrArg List.length ht
  simpa using hlen

/-- Witness for C8 with both classifiers abstaining. -/
theorem C8_hic_liber_est_witness :
    ([("Hic liber est".data, (none : Option String), (0 : ℚ))] : List Seg).length = 1 ∧
      ([("Hic liber est".data, (none : Option String), (0 : ℚ))] : List Seg).map
        (fun s => s.1) = ["Hic liber est".data] :=
  C8_hic_liber_est abstainDetectors [("Hic liber est".data, none, 0)] rfl

/-! ## Claim C4 -/

/-- C4: a document flagged by the content scan (reader failure, a JavaScript
marker, or embedded files) makes the scan return unsafe, and `main` then
aborts before text extraction: neither the text-layer extraction nor the OCR
fallback ever appears in the run's trace. -/
theorem C4_flagged_never_extracted (e : Env)
    (hflag : e.doc.readError = true ∨ e.doc.pageHasJs = true ∨
      e.doc.hasEmbeddedFiles = true) :
    (scan_pdf_for_malicious_content e.doc).1 = false ∧
      Event.extractText ∉ mainTrace e ∧ Event.runOcr ∉ mainTrace e := by
  have hscan : (scan_pdf_for_malicious_content e.doc).1 = false := by
    rcases hdoc : e.doc with ⟨re, js, emb⟩
    rw [hdoc] at hflag
    rcases hflag with h | h | h <;> cases re <;> cases js <;> cases emb <;>
      simp_all [scan_pdf_for_malicious_content]
  refine ⟨hscan, ?_, ?_⟩ <;>
  · intro hmem
    rw [mainTrace] at hmem
    rw [hscan] at hmem
    split_ifs at hmem <;> simp_all

/-- Witness for C4: a run whose document fails to read (scan reports
invalid/corrupt) performs no extraction step. -/
theorem C4_flagged_never_extracted_witness :
    (scan_pdf_for_malicious_content ⟨true, false, false⟩).1 = false ∧
      Event.extractText ∉
        mainTrace ⟨true, true, true, 0, false, ⟨true, false, false⟩, true, false, false⟩ ∧
      Event.runOcr ∉
        mainTrace ⟨true, true, true, 0, false, ⟨true, false, false⟩, true, false, false⟩ :=
  C4_flagged_never_extracted
    ⟨true, true, true, 0, false, ⟨true, false, false⟩, true, false, false⟩ (Or.inl rfl)

/-! ## Claim C9 -/

/-- C9, counterexample: when the initial write to the temporary file raises
(disk failure at line 208), the temp file has already been created with
`delete=False`, but the `try`/`finally` block at lines 211-285 has not yet
been entered, so no cleanup runs on that exit path: the claim's "every exit
path after the temporary file is created" is not honoured by the code. -/
theorem C9_counterexample :
    Event.createTemp ∈
      mainTrace ⟨true, true, true, 0, true, ⟨false, false, false⟩, true, false, false⟩ ∧
    Event.cleanupTemp ∉
      mainTrace ⟨true, true, true, 0, true, ⟨false, false, false⟩, true, false, false⟩ := by
  decide

/-- C9 (amended): on every run in which the temporary file is created and
the initial write to it completes (so the `try` block is entered), the
`finally` clause deletes the temporary file on every exit path — successful
analysis, content-scan rejection, and any exception raised inside the
`try` block; the uncovered path is an exception in the initial write
itself. -/
theorem C9_cleanup_after_write (e : Env) (hw : e.writeTempRaises = false)
    (hc : Event.createTemp ∈ mainTrace e) : Event.cleanupTemp ∈ mainTrace e := by
  obtain ⟨fu, ro, vp, fs, wr, doc, ht, er, ar⟩ := e
  simp only at hw
  subst hw
  rw [mainTrace] at hc ⊢
  split_ifs at hc ⊢ <;> simp_all

/-- Witness for C9 on a fully successful run. -/
theorem C9_cleanup_after_write_witness :
    Event.cleanupTemp ∈
      mainTrace ⟨true, true, true, 0, false, ⟨false, false, false⟩, true, false, false⟩ :=
  C9_cleanup_after_write
    ⟨true, true, true, 0, false, ⟨false, false, false⟩, true, false, false⟩ rfl (by decide)

/-! ## Claim C5 -/

/-- C5: starting from an empty window, five uploads within a 10-second span
are all admitted; a sixth upload within 300 seconds of the first is rejected
and leaves the window unchanged; an upload arriving more than 300 seconds
after the first is admitted again (the first timestamp is evicted, leaving
four fresh ones). -/
theorem C5_rate_limiter_scenario (t1 t2 t3 t4 t5 t6 t7 : ℚ)
    (h12 : t1 ≤ t2) (h23 : t2 ≤ t3) (h34 : t3 ≤ t4) (h45 : t4 ≤ t5)
    (hspan : t5 - t1 ≤ 10) (h56 : t5 ≤ t6) (hwin : t6 - t1 ≤ 300)
    (hel : 300 < t7 - t1) :
    (runUploads [] [t1, t2, t3, t4, t5, t6, t7]).1 =
      [true, true, true, true, true, false, true] := by
  have hP : RATE_LIMIT_PERIOD = 300 := rfl
  have c1 : check_rate_limit t1 [] = (true, [t1]) :=
    check_rate_limit_admit _ _ (by simp) (by simp [RATE_LIMIT])
  have c2 : check_rate_limit t2 [t1] = (true, [t1, t2]) := by
    apply check_rate_limit_admit
    · intro t ht
      simp at ht
      subst ht
      rw [hP]
      linarith
    · simp [RATE_LIMIT]
  have c3 : check_rate_limit t3 [t1, t2] = (true, [t1, t2, t3]) := by
    apply check_rate_limit_admit
    · intro t ht
      simp at ht
      rcases ht with rfl | rfl <;> rw [hP] <;> linarith
    · simp [RATE_LIMIT]
  have c4 : check_rate_limit t4 [t1, t2, t3] = (true, [t1, t2, t3, t4]) := by
    apply check_rate_limit_admit
    · intro t ht
      simp at ht
      rcases ht with rfl | rfl | rfl <;> rw [hP] <;> linarith
    · simp [RATE_LIMIT]
  have c5 : check_rate_limit t5 [t1, t2, t3, t4] = (true, [t1, t2, t3, t4, t5]) := by
    apply check_rate_limit_admit
    · intro t ht
      simp at ht
      rcases ht with rfl | rfl | rfl | rfl <;> rw [hP] <;> linarith
    · simp [RATE_LIMIT]
  have c6 : check_rate_limit t6 [t1, t2, t3, t4, t5] = (false, [t1, t2, t3, t4, t5]) := by
    apply check_rate_limit_reject
    · intro t ht
      simp at ht
      rcases ht with rfl | rfl | rfl | rfl | rfl <;> rw [hP] <;> linarith
    · simp [RATE_LIMIT]
  have c7 : (check_rate_limit t7 [t1, t2, t3, t4, t5]).1 = true := by
    apply check_rate_limit_admit_old_head
    · rw [hP]
      linarith
    · simp [RATE_LIMIT]
  simp [runUploads, c1, c2, c3, c4, c5, c6, c7]

/-- Witness for C5 at upload times 0, 2, 4, 6, 8, then 100, then 400. -/
theorem C5_rate_limiter_scenario_witness :
    (runUploads [] [0, 2, 4, 6, 8, 100, 400]).1 =
      [true, true, true, true, true, false, true] :=
  C5_rate_limiter_scenario 0 2 4 6 8 100 400 (by norm_num) (by norm_num) (by norm_num)
    (by norm_num) (by norm_num) (by norm_num) (by norm_num) (by norm_num)

/-! ## Claim C6 -/

/-- C6, counterexample: on a text with no word tokens (here the single
character period), the ngram loop body never runs, so the only value ever
shown by the progress bar is the initial 0 from `st.progress(0)`: the final
reported value is 0, not 1.0. -/
theorem C6_counterexample :
    (ngramReportedProgress ".".data 1).getLast? = some 0 ∧ (0 : ℚ) ≠ 1 := by
  refine ⟨rfl, ?_⟩
  norm_num

/-- C6 (amended): for every text and group size n in [1,10], under either
strategy, the reported progress sequence is monotonically non-decreasing and
lies in [0,1]; the final reported value is exactly 1 whenever at least one
group is processed — always for the lines strategy (splitting always yields
at least one line), and for the ngram strategy exactly when the text has at
least one word token; a wordless text leaves the ngram progress at the
initial 0. -/
theorem C6_progress_monotone (text : List Char) (n : ℕ) (hn : 1 ≤ n) (hn10 : n ≤ 10) :
    (List.Pairwise (· ≤ ·) (ngramReportedProgress text n) ∧
      (∀ q ∈ ngramReportedProgress text n, 0 ≤ q ∧ q ≤ 1) ∧
      (pyWords text ≠ [] → (ngramReportedProgress text n).getLast? = some 1)) ∧
    (List.Pairwise (· ≤ ·) (linesReportedProgress text n) ∧
      (∀ q ∈ linesReportedProgress text n, 0 ≤ q ∧ q ≤ 1) ∧
      (linesReportedProgress text n).getLast? = some 1) := by
  have hng : ngramReportedProgress text n =
      (0 : ℚ) :: (List.range (chunksOf n (pyWords text)).length).map fun (k : ℕ) =>
        min 1 (((k : ℚ) + 1) / ((max 1 ((pyWords text).length / n) : ℕ) : ℚ)) := rfl
  have hln : linesReportedProgress text n =
      (0 : ℚ) :: (List.range (chunksOf n (splitNl text)).length).map fun (k : ℕ) =>
        min 1 (((k : ℚ) + 1) / ((max 1 ((splitNl text).length / n) : ℕ) : ℚ)) := rfl
  constructor
  · refine ⟨?_, ?_, ?_⟩
    · rw [hng]
      exact progress_pairwise _ _ (le_max_left 1 _)
    · rw [hng]
      exact progress_mem_bounds _ _ (le_max_left 1 _)
    · intro hw
      rw [hng]
      exact progress_getLast _ _ (le_max_left 1 _)
        (one_le_chunksOf_length hn _ hw)
        (max_le (one_le_chunksOf_length hn _ hw) (div_le_chunksOf_length hn _))
  · refine ⟨?_, ?_, ?_⟩
    · rw [hln]
      exact progress_pairwise _ _ (le_max_left 1 _)
    · rw [hln]
      exact progress_mem_bounds _ _ (le_max_left 1 _)
    · rw [hln]
      exact progress_getLast _ _ (le_max_left 1 _)
        (one_le_chunksOf_length hn _ (splitNl_ne_nil text))
        (max_le (one_le_chunksOf_length hn _ (splitNl_ne_nil text))
          (div_le_chunksOf_length hn _))

/-- Witness for C6 at the text a with group size 2. -/
theorem C6_progress_monotone_witness :
    List.Pairwise (· ≤ ·) (ngramReportedProgress "a".data 2) ∧
    ((0 : ℚ) ≤ 0 ∧ (0 : ℚ) ≤ 1) ∧
    (ngramReportedProgress "a".data 2).getLast? = some 1 ∧
    (linesReportedProgress "a".data 2).getLast? = some 1 :=
  ⟨(C6_progress_monotone "a".data 2 (by norm_num) (by norm_num)).1.1,
   (C6_progress_monotone "a".data 2 (by norm_num) (by norm_num)).1.2.1 0
     (by simp [ngramReportedProgress]),
   (C6_progress_monotone "a".data 2 (by norm_num) (by norm_num)).1.2.2 (by decide),
   (C6_progress_monotone "a".data 2 (by norm_num) (by norm_num)).2.2.2⟩

/-! ## Claim C2 -/

/-- C2, counterexample: for the text a.b under the ngram strategy with
group size 1, the produced segments are a and b; re-joining them, even
ignoring whitespace-only gaps, cannot yield the original text: the period
is dropped by the word tokenizer, so the claim's reconstruction property
fails for the ngram strategy. -/
theorem C2_counterexample :
    segment_languages_ngram abstainDetectors "a.b".data 1 =
      some [("a".data, none, 0), ("b".data, none, 0)] ∧
    stripWs (List.flatten ["a".data, "b".data]) ≠ stripWs "a.b".data := by
  refine ⟨rfl, ?_⟩
  decide

/-- C2 (amended): for every detector pair, text and group size n in [1,10],
segments are produced in source order without overlap and are non-empty
after trimming, under both strategies. For the lines strategy the groups of
lines partition the split text in order and re-joining the produced segments
yields the original text up to whitespace. For the ngram strategy the
segments' word tokens partition the token stream of the text in order, but
re-joining recovers only the tokens: characters outside word tokens
(punctuation) are lost, so the claimed reconstruction of the full text holds
only up to deleting non-word characters. -/
theorem C2_segment_partition (d : Detectors) (text : List Char) (n : ℕ)
    (hn : 1 ≤ n) (hn10 : n ≤ 10) (segs segsL : List Seg)
    (hng : segment_languages_ngram d text n = some segs)
    (hln : segment_languages_lines d text n = some segsL) :
    ((segs.map fun s => pyWords s.1).flatten = pyWords text ∧
      ∀ s ∈ segs, trimChars s.1 ≠ []) ∧
    ((chunksOf n (splitNl text)).flatten = splitNl text ∧
      segsL.map (fun s => s.1) = linesChunkTexts text n ∧
      (∀ s ∈ segsL, trimChars s.1 ≠ []) ∧
      stripWs ((segsL.map fun s => s.1).flatten) = stripWs text) := by
  have htexts := segment_ngram_texts d text n segs hng
  have hltexts := segment_lines_texts d text n segsL hln
  have hwordlike : ∀ ws ∈ chunksOf n (pyWords text),
      ∀ w ∈ ws, w ≠ [] ∧ ∀ c ∈ w, isWordChar c := by
    intro ws hws w hw
    exact pyWords_wordlike text w (chunksOf_mem_mem hn hws w hw)
  constructor
  · constructor
    · have h1 : (segs.map fun s => pyWords s.1) =
          (segs.map fun s => s.1).map pyWords := by
        rw [List.map_map]
        rfl
      rw [h1, htexts]
      unfold ngramChunkTexts
      rw [List.map_map]
      have h2 : (chunksOf n (pyWords text)).map (pyWords ∘ joinSep ' ') =
          (chunksOf n (pyWords text)).map id := by
        apply List.map_congr_left
        intro ws hws
        exact pyWords_joinSep_words ws (hwordlike ws hws)
      rw [h2, List.map_id]
      exact chunksOf_flatten hn _
    · intro s hs
      have hmem : s.1 ∈ ngramChunkTexts text n := by
        rw [← htexts]
        exact List.mem_map.mpr ⟨s, hs, rfl⟩
      exact trimChars_ne_nil_of_stripWs _ (ngram_chunk_text_strip_ne_nil hn text s.1 hmem)
  · refine ⟨chunksOf_flatten hn _, hltexts, ?_, ?_⟩
    · intro s hs
      have hmem : s.1 ∈ linesChunkTexts text n := by
        rw [← hltexts]
        exact List.mem_map.mpr ⟨s, hs, rfl⟩
      unfold linesChunkTexts at hmem
      rcases List.mem_filter.mp hmem with ⟨hmap, hne⟩
      rcases List.mem_map.mp hmap with ⟨ls, _, heq⟩
      rw [← heq]
      apply trimChars_ne_nil_of_trim
      rw [heq]
      simpa using hne
    · rw [hltexts]
      unfold linesChunkTexts
      rw [flatten_filter_ne_nil, stripWs_flatten, List.map_map]
      have h3 : ((chunksOf n (splitNl text)).map
            (stripWs ∘ fun ls => trimChars (joinSep '\n' ls))) =
          (chunksOf n (splitNl text)).map (fun ls => (ls.map stripWs).flatten) := by
        apply List.map_congr_left
        intro ls _
        show stripWs (trimChars (joinSep '\n' ls)) = (ls.map stripWs).flatten
        rw [stripWs_trimChars, stripWs_joinSep_nl]
      rw [h3, flatten_map_flatten stripWs, chunksOf_flatten hn]
      rw [← stripWs_joinSep_nl, joinSep_splitNl]

/-- Witness for C2 at the text a with group size 1 and abstaining
classifiers. -/
theorem C2_segment_partition_witness :
    (([("a".data, (none : Option String), (0 : ℚ))] : List Seg).map
        fun s => pyWords s.1).flatten = pyWords "a".data ∧
    trimChars "a".data ≠ [] ∧
    (chunksOf 1 (splitNl "a".data)).flatten = splitNl "a".data ∧
    ([("a".data, (none : Option String), (0 : ℚ))] : List Seg).map (fun s => s.1) =
      linesChunkTexts "a".data 1 ∧
    stripWs ((([("a".data, (none : Option String), (0 : ℚ))] : List Seg).map
        fun s => s.1).flatten) = stripWs "a".data :=
  ⟨(C2_segment_partition abstainDetectors "a".data 1 (by norm_num) (by norm_num)
      [("a".data, none, 0)] [("a".data, none, 0)] rfl rfl).1.1,
   (C2_segment_partition abstainDetectors "a".data 1 (by norm_num) (by norm_num)
      [("a".data, none, 0)] [("a".data, none, 0)] rfl rfl).1.2
     ("a".data, none, 0) (by simp),
   (C2_segment_partition abstainDetectors "a".data 1 (by norm_num) (by norm_num)
      [("a".data, none, 0)] [("a".data, none, 0)] rfl rfl).2.1,
   (C2_segment_partition abstainDetectors "a".data 1 (by norm_num) (by norm_num)
      [("a".data, none, 0)] [("a".data, none, 0)] rfl rfl).2.2.1,
   (C2_segment_partition abstainDetectors "a".data 1 (by norm_num) (by norm_num)
      [("a".data, none, 0)] [("a".data, none, 0)] rfl rfl).2.2.2.2⟩

/-! ## Claim C7 -/

/-- C7: the Segment Details section renders exactly the first ten segments
(min(total,10) entries, unchanged by dropping segments beyond the tenth);
each entry embeds the segment's text truncated to its first 50 characters,
with an ellipsis appended exactly when the text is longer than 50
characters, and the percentage-formatted confidence; the overflow line
equals "... and (total - 10) more segments" exactly when the total exceeds
ten, is omitted when the total is at most ten, and the report ends with
it. -/
theorem C7_report_preview (segs : List Seg) :
    (segmentDetails segs).length = min segs.length 10 ∧
    segmentDetails (segs.take 10) = segmentDetails segs ∧
    (∀ chunk : List Char, 50 < chunk.length →
      truncText chunk = chunk.take 50 ++ ['.', '.', '.']) ∧
    (∀ chunk : List Char, chunk.length ≤ 50 → truncText chunk = chunk) ∧
    (∀ i : ℕ, ∀ s : Seg, (truncText s.1).IsInfix (segmentDetail i s) ∧
      (formatPct2 s.2.2).IsInfix (segmentDetail i s)) ∧
    (10 < segs.length → overflowLine segs =
      strChars "... and " ++ (Nat.repr (segs.length - 10)).data ++
        strChars " more segments\n") ∧
    (segs.length ≤ 10 → overflowLine segs = []) ∧
    (overflowLine segs).IsSuffix (generate_language_report segs) := by
  refine ⟨?_, ?_, ?_, ?_, ?_, ?_, ?_, ?_⟩
  · simp [segmentDetails, List.length_take, Nat.min_comm]
  · simp [segmentDetails, List.take_take]
  · intro chunk hlen
    unfold truncText
    rw [if_pos hlen]
  · intro chunk hlen
    unfold truncText
    rw [if_neg (by omega), List.take_of_length_le hlen, List.append_nil]
  · intro i s
    constructor
    · refine ⟨strChars "Segment " ++ (Nat.repr i).data ++ strChars ":\n" ++
        strChars "  Text: ",
        strChars "\n" ++ strChars "  Detected Language: " ++
          strChars (languageName s.2.1) ++ strChars "\n" ++
          strChars "  Confidence: " ++ formatPct2 s.2.2 ++ strChars "\n\n", ?_⟩
      simp [segmentDetail, List.append_assoc]
    · refine ⟨strChars "Segment " ++ (Nat.repr i).data ++ strChars ":\n" ++
        strChars "  Text: " ++ truncText s.1 ++ strChars "\n" ++
        strChars "  Detected Language: " ++ strChars (languageName s.2.1) ++
        strChars "\n" ++ strChars "  Confidence: ", strChars "\n\n", ?_⟩
      simp [segmentDetail, List.append_assoc]
  · intro hlen
    unfold overflowLine
    rw [if_pos hlen]
  · intro hlen
    unfold overflowLine
    rw [if_neg (by omega)]
  · exact ⟨_, rfl⟩

/-- Witness for C7: eleven identical one-character segments give a preview
of ten entries and the overflow line "... and 1 more segments"; a
51-character text is truncated with an ellipsis while a 1-character text is
not. -/
theorem C7_report_preview_witness :
    (segmentDetails (List.replicate 11 (("a".data, none, (0 : ℚ)) : Seg))).length =
      min (List.replicate 11 (("a".data, none, (0 : ℚ)) : Seg)).length 10 ∧
    truncText (List.replicate 51 'a') =
      (List.replicate 51 'a').take 50 ++ ['.', '.', '.'] ∧
    truncText "a".data = "a".data ∧
    overflowLine (List.replicate 11 (("a".data, none, (0 : ℚ)) : Seg)) =
      strChars "... and " ++
        (Nat.repr ((List.replicate 11 (("a".data, none, (0 : ℚ)) : Seg)).length - 10)).data ++
        strChars " more segments\n" ∧
    overflowLine ([] : List Seg) = [] :=
  ⟨(C7_report_preview (List.replicate 11 (("a".data, none, 0) : Seg))).1,
   (C7_report_preview []).2.2.1 (List.replicate 51 'a') (by simp),
   (C7_report_preview []).2.2.2.1 "a".data (by simp),
   (C7_report_preview (List.replicate 11 (("a".data, none, 0) : Seg))).2.2.2.2.2.1
     (by simp),
   (C7_report_preview ([] : List Seg)).2.2.2.2.2.2.1 (by simp)⟩
